/-
Shallow embedding of the font selection core of kitty (kitty/fonts/core_text.py
together with the shared helpers of kitty/fonts/__init__.py), and proofs about
the claims of the specification.

Modelling conventions:
* Python floats are modelled as rationals (every constant in the source is a
  small decimal literal, so this is exact on all inputs considered).
* Python dicts that serve as axis maps are modelled as association lists with
  insertion-order update semantics; Python dict equality (which ignores key
  order) is modelled by the extensional test dictBeq.
* Python exceptions are modelled by an explicit error monad Except PyErr;
  functions of the source that can raise return in that monad.
* The host enumeration service coretext_all_fonts is a parameter
  env : Bool -> List CTFont; all_fonts_map(monospaced) becomes
  allFontsMap env monospaced (the lru caches of the source are pure
  memoization and have no observable semantics).
* Python sorted is a stable sort; it is modelled by insertion sort with a
  non-strict comparison, which computes the identical output list.
* The log_error call of find_best_match is modelled by a boolean component of
  the result (true when the fallback warning was emitted).
* Descriptor metadata fields that the modelled code never reads are omitted
  from the CTFont record.
-/
import Mathlib

set_option maxRecDepth 4000

unseal Rat.add Rat.sub Rat.mul Rat.inv Rat.ofScientific

namespace KittyCore

/-- Python exception outcomes that the embedded code can raise. -/
inductive PyErr where
  | indexError
  | keyError
  | notImplementedError
  | assertionError
deriving DecidableEq

instance {ε α : Type} [DecidableEq ε] [DecidableEq α] : DecidableEq (Except ε α) := fun a b =>
  match a, b with
  | .error e, .error f =>
    if h : e = f then isTrue (by rw [h]) else isFalse (fun hc => by cases hc; exact h rfl)
  | .error _, .ok _ => isFalse (fun hc => by cases hc)
  | .ok _, .error _ => isFalse (fun hc => by cases hc)
  | .ok x, .ok y =>
    if h : x = y then isTrue (by rw [h]) else isFalse (fun hc => by cases hc; exact h rfl)

/-- Python str.lower, on the character data of the string. -/
def pyLower (s : String) : String := ⟨s.data.map Char.toLower⟩

/-- Helper of pyWords: accumulate the current word (reversed) while scanning. -/
def wordsAux : List Char → List Char → List String
  | [], acc => if acc.isEmpty then [] else [String.mk acc.reverse]
  | c :: cs, acc =>
    if c.isWhitespace then
      (if acc.isEmpty then wordsAux cs [] else String.mk acc.reverse :: wordsAux cs [])
    else wordsAux cs (c :: acc)

/-- Python str.split() with no arguments: whitespace separated words, empties dropped. -/
def pyWords (s : String) : List String := wordsAux s.data []

/-- kitty.fonts.family_name_to_key: collapse whitespace runs to one space, strip, lowercase. -/
def familyNameToKey (s : String) : String :=
  pyLower (String.intercalate " " (pyWords s))

/-- CoreTextFont descriptor record, with the fields the embedded code reads.
weight is in [-1, 1] with 0 normal; slant is in [-1, 1] with 0 upright. -/
structure CTFont where
  family : String
  style : String
  postscript_name : String
  weight : ℚ
  slant : ℚ
  monospace : Bool
  expanded : Bool
  condensed : Bool
  variation : Option (List (String × ℚ))
  path : String
  axis_map : Option (List (String × ℚ))
deriving DecidableEq

/-- Lookup in an association-list model of a Python dict (first binding wins). -/
def dlookup (m : List (String × ℚ)) (k : String) : Option ℚ :=
  match m with
  | [] => none
  | kv :: rest => if kv.1 = k then some kv.2 else dlookup rest k

/-- Python dict assignment d[k] = v: update the binding in place, else append. -/
def dinsert (m : List (String × ℚ)) (k : String) (v : ℚ) : List (String × ℚ) :=
  match m with
  | [] => [(k, v)]
  | kv :: rest => if kv.1 = k then (k, v) :: rest else kv :: dinsert rest k v

/-- Python dict equality: extensional equality of the two key-value mappings. -/
def dictBeq (a b : List (String × ℚ)) : Bool :=
  a.all (fun kv => dlookup b kv.1 == dlookup a kv.1) &&
    b.all (fun kv => dlookup a kv.1 == dlookup b kv.1)

/-- One variable axis of a variable font; only the tag is read by the code. -/
structure VariableAxis where
  tag : String
deriving DecidableEq

/-- One named style of a variable font. -/
structure NamedStyle where
  axis_values : List (String × ℚ)
  name : String
  psname : String
deriving DecidableEq

/-- The variable data of a font; the fields the embedded code reads. -/
structure VariableData where
  axes : List VariableAxis
  named_styles : List NamedStyle
deriving DecidableEq

/-- The loop of set_axis_values: for each known axis tag, if the request maps
the tag, write it into the dict. Iterating the Python set of known tags is
modelled by iterating the axes list; every iteration order yields the same
dictionary contents, because distinct tags write distinct keys. -/
def applyAxes (tag_map : List (String × ℚ)) (axes : List VariableAxis)
    (m : List (String × ℚ)) : List (String × ℚ) :=
  axes.foldl
    (fun acc ax =>
      match dlookup tag_map ax.tag with
      | some val => dinsert acc ax.tag val
      | none => acc)
    m

/-- kitty.fonts.core_text.set_axis_values. The Python function mutates font and
returns a bool; the embedding returns the bool with the updated font. -/
def setAxisValues (tag_map : List (String × ℚ)) (font : CTFont) (vd : VariableData) :
    Bool × CTFont :=
  let previous := font.axis_map.getD []
  let new := applyAxes tag_map vd.axes previous
  (!(dictBeq new previous), { font with axis_map := some new })

/-- First loop of set_named_style: scan named styles by postscript name. -/
def psPass (q : String) (font : CTFont) (vd : VariableData) :
    List NamedStyle → Option (Bool × CTFont)
  | [] => none
  | ns :: rest =>
    if pyLower ns.psname = q then some (setAxisValues ns.axis_values font vd)
    else psPass q font vd rest

/-- Second loop of set_named_style: scan named styles by display name. -/
def namePass (q : String) (font : CTFont) (vd : VariableData) :
    List NamedStyle → Option (Bool × CTFont)
  | [] => none
  | ns :: rest =>
    if pyLower ns.name = q then some (setAxisValues ns.axis_values font vd)
    else namePass q font vd rest

/-- kitty.fonts.core_text.set_named_style (q of the source is pyLower name). -/
def setNamedStyle (name : String) (font : CTFont) (vd : VariableData) : Bool × CTFont :=
  match psPass (pyLower name) font vd vd.named_styles with
  | some r => r
  | none =>
    match namePass (pyLower name) font vd vd.named_styles with
    | some r => r
    | none => (false, font)

/-- Lookup in a multi-valued string-keyed map (a Python dict of lists). -/
def mmGet (m : List (String × List CTFont)) (k : String) : Option (List CTFont) :=
  match m with
  | [] => none
  | kv :: rest => if kv.1 = k then some kv.2 else mmGet rest k

/-- Python m.setdefault(k, []).append(x): append to the binding of k, creating
it at the end of the dict when absent. -/
def mmAdd (m : List (String × List CTFont)) (k : String) (x : CTFont) :
    List (String × List CTFont) :=
  match m with
  | [] => [(k, [x])]
  | kv :: rest => if kv.1 = k then (kv.1, kv.2 ++ [x]) :: rest else kv :: mmAdd rest k x

/-- Insert a into an ascending list, before the first element b with r a b. -/
def insertSorted {α : Type} (r : α → α → Prop) [DecidableRel r] (a : α) :
    List α → List α
  | [] => [a]
  | b :: l => if r a b then a :: b :: l else b :: insertSorted r a l

/-- Stable ascending sort, the model of Python sorted with a key comparison r
(r must be the non-strict key comparison for the result to match Python). -/
def pySort {α : Type} (r : α → α → Prop) [DecidableRel r] (l : List α) : List α :=
  l.foldr (insertSorted r) []

/-- itertools.groupby: maximal runs of consecutive elements with equal key,
each run as (first element, remaining elements of the run). -/
def pyGroupBy {α β : Type} (key : α → β) [DecidableEq β] : List α → List (α × List α)
  | [] => []
  | x :: xs =>
    match pyGroupBy key xs with
    | [] => [(x, [])]
    | (h, t) :: rest =>
      if key x = key h then (x, h :: t) :: rest else (x, []) :: (h, t) :: rest

/-- Number of declared axis entries: len(x.variation or ()). -/
def varSize (f : CTFont) : ℕ := (f.variation.getD []).length

/-- Lexicographic code-point comparison of character lists: the order Python
uses to compare the path strings. -/
def charsBle : List Char → List Char → Bool
  | [], _ => true
  | _ :: _, [] => false
  | a :: as, b :: bs => if a < b then true else if b < a then false else charsBle as bs

/-- Comparison by file path, the key of the per-family variable-font sort. -/
def pathLe (a b : CTFont) : Prop := charsBle a.path.data b.path.data = true

instance : DecidableRel pathLe := fun a b => by unfold pathLe; infer_instance

/-- Comparison by variation-dictionary size, the key of the per-path sort. -/
def sizeLe (a b : CTFont) : Prop := varSize a ≤ varSize b

instance : DecidableRel sizeLe := fun a b => by unfold sizeLe; infer_instance

/-- Per path-group representative: sorted(g, key=len(variation))[0], a stable
sort, so ties resolve to the first-seen element of the group. -/
def pickDefault (h : CTFont) (t : List CTFont) : CTFont :=
  (pySort sizeLe (h :: t)).headD h

/-- Deduplication of a family's variable descriptors: sort by path, group by
path, keep the representative with the smallest variation dictionary. -/
def uniqPerPath (v : List CTFont) : List CTFont :=
  (pyGroupBy (fun f => f.path) (pySort pathLe v)).map (fun g => pickDefault g.1 g.2)

/-- The four indices of the font catalog. -/
structure FontMap where
  family_map : List (String × List CTFont)
  ps_map : List (String × List CTFont)
  full_map : List (String × List CTFont)
  variable_map : List (String × List CTFont)
deriving DecidableEq

/-- State of the registration loop of create_font_map: the three name indices
plus the raw per-family variable-descriptor lists. -/
structure FMBuild where
  family_map : List (String × List CTFont)
  ps_map : List (String × List CTFont)
  full_map : List (String × List CTFont)
  vmap : List (String × List CTFont)

/-- One iteration of the registration loop of create_font_map. -/
def fmStep (st : FMBuild) (x : CTFont) : FMBuild :=
  let f := familyNameToKey x.family
  let s := familyNameToKey x.style
  let ps := familyNameToKey x.postscript_name
  { family_map := mmAdd st.family_map f x
    ps_map := mmAdd st.ps_map ps x
    full_map := mmAdd st.full_map (f ++ " " ++ s) x
    vmap := if x.variation.isSome then mmAdd st.vmap f x else st.vmap }

/-- kitty.fonts.core_text.create_font_map. -/
def createFontMap (allFonts : List CTFont) : FontMap :=
  let st := allFonts.foldl fmStep ⟨[], [], [], []⟩
  ⟨st.family_map, st.ps_map, st.full_map,
    st.vmap.map (fun kv => (kv.1, uniqPerPath kv.2))⟩

/-- all_fonts_map: the catalog built from the host enumeration for a
monospace-filter setting (the lru cache is pure memoization). -/
def allFontsMap (env : Bool → List CTFont) (monospaced : Bool) : FontMap :=
  createFontMap (env monospaced)

/-- Per-family weight statistics, with the sentinel defaults of the source. -/
structure WeightRange where
  minimum : ℚ := 99999
  maximum : ℚ := -99999
  medium : ℚ := -99999
  bold : ℚ := -99999
deriving DecidableEq

/-- The module-level default instance wr of the source. -/
def wr : WeightRange := {}

/-- WeightRange.is_valid: all four fields differ from the defaults of wr. -/
def WeightRange.isValid (r : WeightRange) : Prop :=
  r.minimum ≠ wr.minimum ∧ r.maximum ≠ wr.maximum ∧ r.medium ≠ wr.medium ∧ r.bold ≠ wr.bold

instance (r : WeightRange) : Decidable r.isValid := by
  unfold WeightRange.isValid; infer_instance

/-- The faces scanned by weight_range_for_family:
all_fonts_map(True)['family_map'].get(key, ()). -/
def facesOf (env : Bool → List CTFont) (family : String) : List CTFont :=
  (mmGet (allFontsMap env true).family_map (familyNameToKey family)).getD []

/-- One iteration of the loop of weight_range_for_family over
(mini, maxi, medium, bold). Python s.split()[0] raises IndexError on a
non-empty all-whitespace style, hence the error monad. -/
def wrStep (st : ℚ × ℚ × ℚ × ℚ) (face : CTFont) : Except PyErr (ℚ × ℚ × ℚ × ℚ) :=
  let mini := min face.weight st.1
  let maxi := max face.weight st.2.1
  let medium := st.2.2.1
  let bold := st.2.2.2
  let s := pyLower face.style
  if s = "" then .ok (mini, maxi, medium, bold)
  else
    match (pyWords s).head? with
    | none => .error .indexError
    | some tok =>
      if tok = "semibold" then .ok (mini, maxi, medium, face.weight)
      else if tok = "bold" ∧ bold = wr.bold then .ok (mini, maxi, medium, face.weight)
      else if tok = "medium" then .ok (mini, maxi, face.weight, bold)
      else if tok = "regular" ∧ medium = wr.medium then .ok (mini, maxi, face.weight, bold)
      else .ok (mini, maxi, medium, bold)

/-- kitty.fonts.core_text.weight_range_for_family. -/
def weightRangeForFamily (env : Bool → List CTFont) (family : String) :
    Except PyErr WeightRange := do
  let st ← (facesOf env family).foldlM wrStep (wr.minimum, wr.maximum, wr.medium, wr.bold)
  pure ⟨st.1, st.2.1, st.2.2.1, st.2.2.2⟩

/-- The request parameters a CTScorer is created with. -/
structure ScorerCfg where
  bold : Bool
  italic : Bool
  monospaced : Bool
  prefer_variable : Bool
deriving DecidableEq

/-- The four-component ranking key, compared lexicographically. -/
structure Score where
  variable_score : ℕ
  style_score : ℚ
  monospace_score : ℕ
  width_score : ℕ
deriving DecidableEq

/-- The bold contribution to style_score in CTScorer.score. -/
def boldComponent (cfg : ScorerCfg) (wrOpt : Option WeightRange) (c : CTFont) : ℚ :=
  match wrOpt with
  | none =>
    if c.weight < 0 then 2
    else if cfg.bold then |c.weight - 3/10| else c.weight
  | some r => |c.weight - (if cfg.bold then r.bold else r.medium)|

/-- The italic contribution to style_score in CTScorer.score. -/
def italicComponent (cfg : ScorerCfg) (c : CTFont) : ℚ :=
  if cfg.italic then (if c.slant < 0 then 2 else |1 - c.slant|) else c.slant

/-- CTScorer.score. -/
def score (cfg : ScorerCfg) (wrOpt : Option WeightRange) (c : CTFont) : Score :=
  ⟨if cfg.prefer_variable && c.variation.isSome then 0 else 1,
    boldComponent cfg wrOpt c + italicComponent cfg c,
    if c.monospace then 0 else 1,
    if !c.expanded && !c.condensed then 0 else 1⟩

/-- A Score as an element of the lexicographic product order, the model of
Python tuple comparison. -/
def Score.key (a : Score) : Lex (ℕ × Lex (ℚ × Lex (ℕ × ℕ))) :=
  toLex (a.variable_score, toLex (a.style_score, toLex (a.monospace_score, a.width_score)))

/-- Non-strict lexicographic comparison of scores. -/
def Score.le (a b : Score) : Prop := Score.key a ≤ Score.key b

instance : DecidableRel Score.le := fun a b => by unfold Score.le; infer_instance

/-- Candidate comparison by score under a fixed request and weight range. -/
def candLe (cfg : ScorerCfg) (wrOpt : Option WeightRange) (a b : CTFont) : Prop :=
  Score.le (score cfg wrOpt a) (score cfg wrOpt b)

instance (cfg : ScorerCfg) (wrOpt : Option WeightRange) : DecidableRel (candLe cfg wrOpt) :=
  fun a b => by unfold candLe; infer_instance

/-- The batch-level weight-range decision at the top of
CTScorer.sorted_candidates: established only when all candidates share one
family and that family's range is valid with an inverted weight convention. -/
def batchWeightRange (env : Bool → List CTFont) (cands : List CTFont) :
    Except PyErr (Option WeightRange) :=
  match (cands.map (fun x => x.family)).dedup with
  | [fam] => do
    let r ← weightRangeForFamily env fam
    pure (if r.isValid ∧ r.minimum < 0 ∧ r.maximum ≤ 0 then some r else none)
  | _ => pure none

/-- CTScorer.sorted_candidates. -/
def sortedCandidates (env : Bool → List CTFont) (cfg : ScorerCfg) (cands : List CTFont) :
    Except PyErr (List CTFont) := do
  let wrOpt ← batchWeightRange env cands
  pure (pySort (candLe cfg wrOpt) cands)

/-- One selector iteration of the exact-match loop of find_best_match: look up
the key, score the candidates, and return the top candidate unless it equals
the excluded face (Python: if possible != ignore_face: return possible). -/
def tryExactOne (env : Bool → List CTFont) (cfg : ScorerCfg)
    (m : List (String × List CTFont)) (q : String) (ignoreFace : Option CTFont) :
    Except PyErr (Option CTFont) :=
  match mmGet m q with
  | none => .ok none
  | some cands =>
    if cands.isEmpty then .ok none
    else do
      let sc ← sortedCandidates env cfg cands
      match sc with
      | [] => .error .indexError
      | possible :: _ => .ok (if some possible ≠ ignoreFace then some possible else none)

/-- kitty.fonts.core_text.find_best_match. The boolean of the result is true
exactly when the last-resort warning was logged. -/
def findBestMatch (env : Bool → List CTFont) (family : String)
    (bold italic monospaced : Bool) (ignoreFace : Option CTFont)
    (preferVariable : Bool) : Except PyErr (CTFont × Bool) := do
  let q := familyNameToKey family
  let fontMap := allFontsMap env monospaced
  let cfg : ScorerCfg := ⟨bold, italic, monospaced, preferVariable⟩
  match ← tryExactOne env cfg fontMap.ps_map q ignoreFace with
  | some f => pure (f, false)
  | none =>
    match ← tryExactOne env cfg fontMap.full_map q ignoreFace with
    | some f => pure (f, false)
    | none =>
      let warned := (mmGet fontMap.family_map q).isNone
      let q2 := if (mmGet fontMap.family_map q).isNone then "menlo" else q
      match mmGet fontMap.family_map q2 with
      | none => .error .keyError
      | some cands => do
        let sc ← sortedCandidates env cfg cands
        match sc with
        | [] => .error .indexError
        | c :: _ => pure (c, warned)

/-- A font request; the embedded code reads only the system keyword
(spec.is_system is system != ""). -/
structure FontSpec where
  system : String := ""
deriving DecidableEq

/-- kitty.fonts.core_text.get_font_from_spec. A non-system spec raises
NotImplementedError; the auto keyword with bold or italic requested asserts a
resolved medium font and inherits its family; the resolved medium font is
passed to find_best_match as the excluded face. -/
def getFontFromSpec (env : Bool → List CTFont) (spec : FontSpec)
    (bold italic : Bool) (resolvedMedium : Option CTFont) : Except PyErr CTFont :=
  if spec.system = "" then .error .notImplementedError
  else if spec.system = "auto" ∧ (bold ∨ italic) then
    match resolvedMedium with
    | none => .error .assertionError
    | some m => (findBestMatch env m.family bold italic true resolvedMedium false).map (fun r => r.1)
  else (findBestMatch env spec.system bold italic true resolvedMedium false).map (fun r => r.1)

/-- The four per-role font specs of the configuration. -/
structure KittyOptions where
  font_family : FontSpec
  bold_font : FontSpec
  italic_font : FontSpec
  bold_italic_font : FontSpec
deriving DecidableEq

/-- The result of get_font_files: one descriptor per role, plus the
medium_family attribute the source records on the function object. -/
structure FontFiles where
  medium : CTFont
  bold : CTFont
  italic : CTFont
  bi : CTFont
  medium_family : String
deriving DecidableEq

/-- kitty.fonts.core_text.get_font_files. The medium role is resolved first
without exclusion; the loop over sorted(attr_map) then visits the roles in the
order medium, italic, bold, bold-italic, passing the resolved medium font to
each of the three styled roles. -/
def getFontFiles (env : Bool → List CTFont) (opts : KittyOptions) :
    Except PyErr FontFiles := do
  let medium ← getFontFromSpec env opts.font_family false false none
  let italicFont ← getFontFromSpec env opts.italic_font false true (some medium)
  let boldFont ← getFontFromSpec env opts.bold_font true false (some medium)
  let biFont ← getFontFromSpec env opts.bold_italic_font true true (some medium)
  pure ⟨medium, boldFont, italicFont, biFont, medium.family⟩

/-- A face whose first case-folded style token is semibold (such faces are
never skipped nor crashing in the weight-range loop). -/
def isSemiboldFace (f : CTFont) : Bool :=
  (pyWords (pyLower f.style)).head? == some "semibold"

/-- A face whose first case-folded style token is bold. -/
def isBoldFace (f : CTFont) : Bool :=
  (pyWords (pyLower f.style)).head? == some "bold"

/-- The weight of the last semibold-labelled face of the list, if any. -/
def lastSemiboldWeight (faces : List CTFont) : Option ℚ :=
  ((faces.filter isSemiboldFace).getLast?).map (fun f => f.weight)

/-- The weight of the first bold-labelled face of the list, if any. -/
def firstBoldWeight (faces : List CTFont) : Option ℚ :=
  (faces.find? isBoldFace).map (fun f => f.weight)

/-- The variable descriptors of family key k, in enumeration order: the raw
per-family list that create_font_map deduplicates. -/
def famVariable (allFonts : List CTFont) (k : String) : List CTFont :=
  allFonts.filter (fun x => x.variation.isSome && (familyNameToKey x.family == k))

/-- The first element of v with path p whose variation size is minimal among
the elements of v with path p: the first-seen default instance for that path. -/
def firstMinForPath (v : List CTFont) (p : String) : Option CTFont :=
  v.find? (fun f =>
    (f.path == p) && v.all (fun g2 => !(g2.path == p) || decide (sizeLe f g2)))

/-- A plain upright monospace face used as the base of the concrete examples. -/
def baseFont : CTFont :=
  ⟨"Fam", "Regular", "ps", 0, 0, true, false, false, none, "path", none⟩

/-- A semibold face of weight 0.3. -/
def c1semi : CTFont := { baseFont with style := "Semibold", weight := 3/10, postscript_name := "s1" }

/-- A bold face of weight 0.4, listed after the semibold face. -/
def c1bold : CTFont := { baseFont with style := "Bold", weight := 2/5, postscript_name := "b1" }

/-- Enumeration with one family holding a semibold face and then a bold face. -/
def env1 : Bool → List CTFont := fun _ => [c1semi, c1bold]

/-- The weight range the code computes for that family. -/
def wr1 : WeightRange := ⟨3/10, 2/5, -99999, 3/10⟩

/-- The request with nothing asked for: not bold, not italic, monospaced. -/
def cfgPlain : ScorerCfg := ⟨false, false, true, false⟩

/-- The plain request with variable fonts preferred. -/
def cfgVar : ScorerCfg := ⟨false, false, true, true⟩

/-- An upright candidate. -/
def c2a : CTFont := baseFont

/-- A candidate differing from c2a only in slant. -/
def c2b : CTFont := { baseFont with slant := 1/2 }

/-- An empty host enumeration. -/
def envEmpty : Bool → List CTFont := fun _ => []

/-- A thin variable candidate. -/
def c3a : CTFont := { baseFont with family := "F1", weight := -1/2, variation := some [] }

/-- A normal-weight non-variable candidate of another family. -/
def c3b : CTFont := { baseFont with family := "F2" }

/-- A heavier-than-normal candidate. -/
def c3c : CTFont := { baseFont with family := "F1", weight := 1/2 }

/-- A thin candidate of another family, otherwise equal to c3c. -/
def c3d : CTFont := { baseFont with family := "F2", weight := -1/2 }

/-- The only installed face: a regular Menlo. -/
def menloFace : CTFont :=
  { baseFont with family := "Menlo", postscript_name := "MenloRegular", path := "m" }

/-- Enumeration in which Menlo Regular is the only face. -/
def envMenlo : Bool → List CTFont := fun _ => [menloFace]

/-- Configuration: medium is Menlo, the three styled roles are auto. -/
def opts4 : KittyOptions := ⟨⟨"Menlo"⟩, ⟨"auto"⟩, ⟨"auto"⟩, ⟨"auto"⟩⟩

/-- The per-role resolution get_font_files computes from envMenlo and opts4. -/
def ffRes : FontFiles := ⟨menloFace, menloFace, menloFace, menloFace, "Menlo"⟩

/-- A heavy face registered under the postscript key shared with c4b. -/
def c4a : CTFont :=
  { baseFont with family := "Fam2", style := "a", postscript_name := "Shared", weight := 1, path := "pa" }

/-- A normal face registered under the postscript key shared with c4a. -/
def c4b : CTFont :=
  { baseFont with family := "Fam2", style := "b", postscript_name := "Shared", path := "pb" }

/-- Enumeration with the two faces sharing one postscript-name key. -/
def envShared : Bool → List CTFont := fun _ => [c4a, c4b]

/-- A face of family Foo whose postscript name is Bar. -/
def fooFace : CTFont :=
  { baseFont with family := "Foo", style := "a", postscript_name := "Bar", path := "q" }

/-- Enumeration in which Foo (postscript name Bar) is the only face. -/
def envFoo : Bool → List CTFont := fun _ => [fooFace]

/-- A variable descriptor with two axis entries. -/
def d2 : CTFont :=
  { baseFont with
    family := "VFam", style := "s2", postscript_name := "v2",
    variation := some [("wght", 1), ("wdth", 2)], path := "V" }

/-- A variable descriptor with zero axis entries: the default instance. -/
def d0 : CTFont :=
  { baseFont with
    family := "VFam", style := "s0", postscript_name := "v0",
    variation := some [], path := "V" }

/-- A variable descriptor with five axis entries. -/
def d5 : CTFont :=
  { baseFont with
    family := "VFam", style := "s5", postscript_name := "v5",
    variation := some [("a", 1), ("b", 2), ("c", 3), ("d", 4), ("e", 5)], path := "V" }

/-- Three descriptors of one file with variation sizes 2, 0, 5. -/
def allFonts5 : List CTFont := [d2, d0, d5]

/-- Variable data with no axes and one named style called bold. -/
def vd8 : VariableData := ⟨[], [⟨[("wght", 7)], "Bold Style", "bold"⟩]⟩

/-- Variable data knowing only the wght axis. -/
def vd9 : VariableData := ⟨[⟨"wght"⟩], []⟩

/-- A tag request for an axis unknown to vd9. -/
def tm9 : List (String × ℚ) := [("slnt", 1)]

/-! Lemmas about the association-list model of Python dicts. -/

theorem dlookup_dinsert (m : List (String × ℚ)) (k k2 : String) (v : ℚ) :
    dlookup (dinsert m k v) k2 = if k = k2 then some v else dlookup m k2 := by
  induction m with
  | nil => by_cases h2 : k = k2 <;> simp [dinsert, dlookup, h2]
  | cons kv rest ih =>
    by_cases h : kv.1 = k
    · by_cases h2 : k = k2
      · simp [dinsert, dlookup, h, h2]
      · have h3 : kv.1 ≠ k2 := by rw [h]; exact h2
        simp [dinsert, dlookup, h, h2, h3]
    · by_cases h2 : kv.1 = k2
      · have h3 : k ≠ k2 := fun he => h (by rw [he, h2])
        have h4 : k2 ≠ k := fun he => h3 he.symm
        simp [dinsert, dlookup, h, h2, h3, h4]
      · simp [dinsert, dlookup, h, h2, ih]

theorem dlookup_eq_some_mem (m : List (String × ℚ)) (k : String) (v : ℚ)
    (h : dlookup m k = some v) : (k, v) ∈ m := by
  induction m with
  | nil => simp [dlookup] at h
  | cons kv rest ih =>
    by_cases h1 : kv.1 = k
    · simp only [dlookup, h1, if_true, Option.some.injEq] at h
      have hkv : kv = (k, v) := by
        cases kv
        simp_all
      rw [hkv]
      exact List.mem_cons_self _ _
    · simp only [dlookup, h1, if_false] at h
      exact List.mem_cons_of_mem _ (ih h)

theorem dictBeq_iff (a b : List (String × ℚ)) :
    dictBeq a b = true ↔ ∀ k, dlookup a k = dlookup b k := by
  constructor
  · intro h k
    rw [dictBeq, Bool.and_eq_true, List.all_eq_true, List.all_eq_true] at h
    cases ha : dlookup a k with
    | some v =>
      have h2 := h.1 (k, v) (dlookup_eq_some_mem a k v ha)
      simp only [beq_iff_eq] at h2
      rw [h2, ha]
    | none =>
      cases hb : dlookup b k with
      | some w =>
        have h2 := h.2 (k, w) (dlookup_eq_some_mem b k w hb)
        simp only [beq_iff_eq] at h2
        rw [← ha, ← hb]
        exact h2
      | none => rfl
  · intro h
    rw [dictBeq, Bool.and_eq_true, List.all_eq_true, List.all_eq_true]
    exact ⟨fun kv _ => by simp [h kv.1], fun kv _ => by simp [h kv.1]⟩

theorem applyAxes_lookup (tm : List (String × ℚ)) (axes : List VariableAxis)
    (m : List (String × ℚ)) (t : String) :
    dlookup (applyAxes tm axes m) t =
      match (if axes.any (fun ax => ax.tag == t) then dlookup tm t else none) with
      | some v => some v
      | none => dlookup m t := by
  induction axes generalizing m with
  | nil => simp [applyAxes]
  | cons ax rest ih =>
    have step : applyAxes tm (ax :: rest) m =
        applyAxes tm rest
          (match dlookup tm ax.tag with
           | some val => dinsert m ax.tag val
           | none => m) := by
      simp [applyAxes, List.foldl_cons]
    rw [step]
    cases htag : dlookup tm ax.tag with
    | some v =>
      rw [ih]
      by_cases he : ax.tag = t
      · subst he
        rw [htag]
        by_cases hrest : rest.any (fun a => a.tag == ax.tag) <;>
          simp [hrest, dlookup_dinsert, htag]
      · have hne : (ax.tag == t) = false := by simp [he]
        simp only [List.any_cons, hne, Bool.false_or, dlookup_dinsert, he, if_false]
    | none =>
      rw [ih]
      by_cases he : ax.tag = t
      · subst he
        rw [htag]
        by_cases hrest : rest.any (fun a => a.tag == ax.tag) <;> simp [hrest, htag]
      · have hne : (ax.tag == t) = false := by simp [he]
        simp only [List.any_cons, hne, Bool.false_or]

theorem applyAxes_skip (tm : List (String × ℚ)) (axes : List VariableAxis)
    (m : List (String × ℚ)) (h : ∀ ax ∈ axes, dlookup tm ax.tag = none) :
    applyAxes tm axes m = m := by
  induction axes generalizing m with
  | nil => simp [applyAxes]
  | cons ax rest ih =>
    have h1 : dlookup tm ax.tag = none := h ax (List.mem_cons_self _ _)
    have step : applyAxes tm (ax :: rest) m = applyAxes tm rest m := by
      simp [applyAxes, List.foldl_cons, h1]
    rw [step]
    exact ih _ (fun a ha => h a (List.mem_cons_of_mem _ ha))

/-- Claim C9 (confirmed). set_axis_values applies exactly the requested tags
known to variable_data.axes (unknown tags are silently ignored), merges into
the existing axis map retaining the previous bindings of unrequested tags,
and returns true exactly when the resulting mapping differs extensionally from
the previous one; a request touching no known tag returns false and leaves the
axis-map value unchanged. -/
theorem c9_set_axis_values_semantics (tm : List (String × ℚ)) (font : CTFont)
    (vd : VariableData) :
    (∀ t : String,
      dlookup (((setAxisValues tm font vd).2.axis_map).getD []) t =
        match (if vd.axes.any (fun ax => ax.tag == t) then dlookup tm t else none) with
        | some v => some v
        | none => dlookup (font.axis_map.getD []) t)
    ∧ ((setAxisValues tm font vd).1 = false ↔
        ∀ t : String, dlookup (((setAxisValues tm font vd).2.axis_map).getD []) t
          = dlookup (font.axis_map.getD []) t)
    ∧ ((∀ ax ∈ vd.axes, dlookup tm ax.tag = none) →
        (setAxisValues tm font vd).1 = false
        ∧ (setAxisValues tm font vd).2.axis_map = some (font.axis_map.getD [])) := by
  have hmap : (setAxisValues tm font vd).2.axis_map
      = some (applyAxes tm vd.axes (font.axis_map.getD [])) := rfl
  have hfst : (setAxisValues tm font vd).1
      = !(dictBeq (applyAxes tm vd.axes (font.axis_map.getD [])) (font.axis_map.getD [])) := rfl
  refine ⟨?_, ?_, ?_⟩
  · intro t
    rw [hmap]
    simpa using applyAxes_lookup tm vd.axes (font.axis_map.getD []) t
  · rw [hfst, hmap]
    simp only [Option.getD_some, Bool.not_eq_false']
    exact dictBeq_iff _ _
  · intro h
    have hskip : applyAxes tm vd.axes (font.axis_map.getD []) = font.axis_map.getD [] :=
      applyAxes_skip _ _ _ h
    constructor
    · rw [hfst, hskip]
      simp [(dictBeq_iff _ _).2 (fun _ => rfl)]
    · rw [hmap, hskip]

/-- Witness for C9: a request naming only the unknown tag slnt returns false
and leaves the (empty) axis-map value unchanged. -/
theorem c9_set_axis_values_semantics_witness :
    (setAxisValues tm9 baseFont vd9).1 = false
    ∧ (setAxisValues tm9 baseFont vd9).2.axis_map = some (baseFont.axis_map.getD []) :=
  (c9_set_axis_values_semantics tm9 baseFont vd9).2.2 (by decide)

/-- Claim C10 (confirmed). set_axis_values always stores a freshly built map in
the axis_map field, even when it reports no change: after any call the field is
present, and a descriptor that had no axis map acquires the empty map from a
call whose request touches no known tag. -/
theorem c10_axis_map_always_assigned (tm : List (String × ℚ)) (font : CTFont)
    (vd : VariableData) :
    ((setAxisValues tm font vd).2.axis_map).isSome = true
    ∧ (font.axis_map = none → (∀ ax ∈ vd.axes, dlookup tm ax.tag = none) →
        (setAxisValues tm font vd).2.axis_map = some []) := by
  constructor
  · rfl
  · intro hnone h
    have hmap : (setAxisValues tm font vd).2.axis_map
        = some (applyAxes tm vd.axes (font.axis_map.getD [])) := rfl
    rw [hmap, applyAxes_skip _ _ _ h, hnone]
    rfl

/-- Witness for C10: a descriptor without an axis map acquires the empty map
from a call matching nothing. -/
theorem c10_axis_map_always_assigned_witness :
    (setAxisValues tm9 baseFont vd9).2.axis_map = some [] :=
  (c10_axis_map_always_assigned tm9 baseFont vd9).2 rfl (by decide)

/-! Lemmas about set_named_style. -/

theorem psPass_eq (q : String) (font : CTFont) (vd : VariableData) (l : List NamedStyle) :
    psPass q font vd l =
      (l.find? (fun ns => pyLower ns.psname == q)).map
        (fun ns => setAxisValues ns.axis_values font vd) := by
  induction l with
  | nil => rfl
  | cons ns rest ih =>
    by_cases h : pyLower ns.psname = q <;> simp [psPass, List.find?_cons, h, ih]

theorem namePass_eq (q : String) (font : CTFont) (vd : VariableData) (l : List NamedStyle) :
    namePass q font vd l =
      (l.find? (fun ns => pyLower ns.name == q)).map
        (fun ns => setAxisValues ns.axis_values font vd) := by
  induction l with
  | nil => rfl
  | cons ns rest ih =>
    by_cases h : pyLower ns.name = q <;> simp [namePass, List.find?_cons, h, ih]

/-- Claim C8 (corrected). set_named_style matches case-insensitively, checks
every named style's postscript name before any display name with the first
match winning in declaration order, and applies the matched style's axis
values via set_axis_values; when nothing matches it returns false with the
descriptor untouched. Contrary to the claim, a successful match returns the
boolean of set_axis_values, which is false when the axis map is unchanged. -/
theorem c8_amended_named_style_lookup (name : String) (font : CTFont) (vd : VariableData) :
    setNamedStyle name font vd =
      match vd.named_styles.find? (fun ns => pyLower ns.psname == pyLower name) with
      | some ns => setAxisValues ns.axis_values font vd
      | none =>
        match vd.named_styles.find? (fun ns => pyLower ns.name == pyLower name) with
        | some ns => setAxisValues ns.axis_values font vd
        | none => (false, font) := by
  unfold setNamedStyle
  rw [psPass_eq, namePass_eq]
  cases vd.named_styles.find? (fun ns => pyLower ns.psname == pyLower name) with
  | some ns => rfl
  | none =>
    cases vd.named_styles.find? (fun ns => pyLower ns.name == pyLower name) with
    | some ns => rfl
    | none => rfl

/-- Counterexample for C8: the style named bold matches the request Bold, yet
set_named_style returns false because applying its axis values changes
nothing, so false does not imply that no named style matched. -/
theorem c8_counterexample :
    (setNamedStyle "Bold" baseFont vd8).1 = false
    ∧ vd8.named_styles.any (fun ns => pyLower ns.psname == pyLower "Bold") = true := by
  decide

/-- Claim C6 (confirmed). A FontSpec that is not a system-keyword request makes
get_font_from_spec fail with the not-implemented error before any other
effect. -/
theorem c6_non_system_not_implemented (env : Bool → List CTFont) (spec : FontSpec)
    (bold italic : Bool) (rm : Option CTFont) (h : spec.system = "") :
    getFontFromSpec env spec bold italic rm = .error .notImplementedError := by
  unfold getFontFromSpec
  rw [h]
  simp

/-- Witness for C6: the empty system spec fails with not-implemented. -/
theorem c6_non_system_not_implemented_witness :
    getFontFromSpec envMenlo ⟨""⟩ false false none = .error .notImplementedError :=
  c6_non_system_not_implemented envMenlo ⟨""⟩ false false none rfl

/-! Lemmas about weight_range_for_family. -/

theorem getLast?_cons_getD {α : Type} (a : α) (l : List α) :
    (a :: l).getLast? = some (l.getLast?.getD a) := by
  induction l generalizing a with
  | nil => rfl
  | cons b l ih =>
    rw [List.getLast?_cons_cons, ih b]
    simp

theorem lastSemiboldWeight_cons (f : CTFont) (rest : List CTFont) :
    lastSemiboldWeight (f :: rest) =
      if isSemiboldFace f then some ((lastSemiboldWeight rest).getD f.weight)
      else lastSemiboldWeight rest := by
  by_cases h : isSemiboldFace f
  · rw [lastSemiboldWeight, List.filter_cons_of_pos h, getLast?_cons_getD, if_pos h]
    cases hl : (rest.filter isSemiboldFace).getLast? with
    | none => simp [lastSemiboldWeight, hl]
    | some g => simp [lastSemiboldWeight, hl]
  · rw [lastSemiboldWeight, List.filter_cons_of_neg (by simpa using h), if_neg h]
    rfl

theorem firstBoldWeight_cons (f : CTFont) (rest : List CTFont) :
    firstBoldWeight (f :: rest) =
      if isBoldFace f then some f.weight else firstBoldWeight rest := by
  by_cases h : isBoldFace f
  · rw [firstBoldWeight, List.find?_cons_of_pos _ h, if_pos h]
    rfl
  · rw [firstBoldWeight, List.find?_cons_of_neg _ (by simpa using h), if_neg h]
    rfl

theorem wrFold_bold (faces : List CTFont) :
    ∀ st st2 : ℚ × ℚ × ℚ × ℚ,
      List.foldlM wrStep st faces = Except.ok st2 →
      (∀ f ∈ faces, f.weight ≠ wr.bold) →
      st2.2.2.2 =
        match lastSemiboldWeight faces with
        | some w => w
        | none =>
          if st.2.2.2 = wr.bold then (firstBoldWeight faces).getD st.2.2.2
          else st.2.2.2 := by
  induction faces with
  | nil =>
    intro st st2 h _
    simp only [List.foldlM_nil] at h
    cases h
    simp only [lastSemiboldWeight, firstBoldWeight, List.filter_nil, List.find?_nil,
      List.getLast?_nil, Option.map_none', Option.getD_none]
    split <;> rfl
  | cons f rest ih =>
    intro st st2 h hw
    rw [List.foldlM_cons] at h
    cases hstep : wrStep st f with
    | error e =>
      rw [hstep] at h
      simp only [bind, Except.bind] at h
      exact Except.noConfusion h
    | ok st1 =>
      rw [hstep] at h
      simp only [bind, Except.bind] at h
      have hwf : f.weight ≠ wr.bold := hw f (List.mem_cons_self _ _)
      have hwrest : ∀ g ∈ rest, g.weight ≠ wr.bold :=
        fun g hg => hw g (List.mem_cons_of_mem _ hg)
      have ihr := ih st1 st2 h hwrest
      by_cases hsty : pyLower f.style = ""
      · have hsb : isSemiboldFace f = false := by
          simp only [isSemiboldFace, hsty]
          decide
        have hbd : isBoldFace f = false := by
          simp only [isBoldFace, hsty]
          decide
        have hst1 : st1.2.2.2 = st.2.2.2 := by
          rw [wrStep] at hstep
          simp only [if_pos hsty] at hstep
          injection hstep with heq
          rw [← heq]
        rw [lastSemiboldWeight_cons, firstBoldWeight_cons, hsb, hbd]
        simp only [if_false, Bool.false_eq_true]
        rw [ihr, hst1]
      · cases htok : (pyWords (pyLower f.style)).head? with
        | none =>
          rw [wrStep] at hstep
          simp only [if_neg hsty, htok] at hstep
          exact Except.noConfusion hstep
        | some tok =>
          rw [wrStep] at hstep
          simp only [if_neg hsty, htok] at hstep
          by_cases t1 : tok = "semibold"
          · have hsb : isSemiboldFace f = true := by
              simp [isSemiboldFace, htok, t1]
            have hst1 : st1.2.2.2 = f.weight := by
              rw [if_pos t1] at hstep
              injection hstep with heq
              rw [← heq]
            rw [lastSemiboldWeight_cons, hsb]
            simp only [if_true]
            rw [ihr, hst1]
            cases hrest : lastSemiboldWeight rest with
            | some w => simp
            | none => simp [hwf]
          · have hsb : isSemiboldFace f = false := by
              simp only [isSemiboldFace, htok, beq_iff_eq, Option.some.injEq]
              exact decide_eq_false t1
            rw [if_neg t1] at hstep
            by_cases t2 : tok = "bold"
            · have hbd : isBoldFace f = true := by
                simp [isBoldFace, htok, t2]
              rw [lastSemiboldWeight_cons, firstBoldWeight_cons, hsb, hbd]
              simp only [if_false, if_true, Bool.false_eq_true]
              by_cases hsent : st.2.2.2 = wr.bold
              · have hst1 : st1.2.2.2 = f.weight := by
                  rw [if_pos ⟨t2, hsent⟩] at hstep
                  injection hstep with heq
                  rw [← heq]
                rw [ihr, hst1]
                simp only [hsent, if_pos]
                cases hrest : lastSemiboldWeight rest with
                | some w => simp
                | none => simp [hwf]
              · have hst1 : st1.2.2.2 = st.2.2.2 := by
                  rw [if_neg (by intro hc; exact hsent hc.2)] at hstep
                  by_cases t3 : tok = "medium"
                  · rw [if_pos t3] at hstep
                    injection hstep with heq
                    rw [← heq]
                  · rw [if_neg t3] at hstep
                    by_cases t4 : tok = "regular" ∧ st.2.2.1 = wr.medium
                    · rw [if_pos t4] at hstep
                      injection hstep with heq
                      rw [← heq]
                    · rw [if_neg t4] at hstep
                      injection hstep with heq
                      rw [← heq]
                rw [ihr, hst1]
                simp only [hsent, if_neg, if_false]
            · have hbd : isBoldFace f = false := by
                simp only [isBoldFace, htok, beq_iff_eq, Option.some.injEq]
                exact decide_eq_false t2
              have hst1 : st1.2.2.2 = st.2.2.2 := by
                rw [if_neg (by intro hc; exact t2 hc.1)] at hstep
                by_cases t3 : tok = "medium"
                · rw [if_pos t3] at hstep
                  injection hstep with heq
                  rw [← heq]
                · rw [if_neg t3] at hstep
                  by_cases t4 : tok = "regular" ∧ st.2.2.1 = wr.medium
                  · rw [if_pos t4] at hstep
                    injection hstep with heq
                    rw [← heq]
                  · rw [if_neg t4] at hstep
                    injection hstep with heq
                    rw [← heq]
              rw [lastSemiboldWeight_cons, firstBoldWeight_cons, hsb, hbd]
              simp only [if_false, Bool.false_eq_true]
              rw [ihr, hst1]

/-- Claim C1 (corrected). In weight_range_for_family the final bold field is
the weight of the last semibold-labelled face when one exists, and otherwise
the weight of the first bold-labelled face: a semibold label overwrites the
bold field unconditionally (also overriding an earlier bold label), while a
bold label writes it only when nothing has set it yet. This is the reverse of
the claimed precedence. -/
theorem c1_amended_bold_field (env : Bool → List CTFont) (family : String)
    (r : WeightRange) (hok : weightRangeForFamily env family = Except.ok r)
    (hw : ∀ f ∈ facesOf env family, f.weight ≠ wr.bold) :
    r.bold =
      match lastSemiboldWeight (facesOf env family) with
      | some w => w
      | none => (firstBoldWeight (facesOf env family)).getD wr.bold := by
  rw [weightRangeForFamily] at hok
  cases hfold : List.foldlM wrStep (wr.minimum, wr.maximum, wr.medium, wr.bold)
      (facesOf env family) with
  | error e =>
    rw [hfold] at hok
    simp only [bind, Except.bind] at hok
    exact Except.noConfusion hok
  | ok st2 =>
    rw [hfold] at hok
    simp only [bind, Except.bind, pure, Except.pure] at hok
    have hfold2 : List.foldlM wrStep (wr.minimum, wr.maximum, wr.medium, wr.bold)
        (facesOf env family) = Except.ok st2 := hfold
    have hchar := wrFold_bold (facesOf env family) _ st2 hfold2 hw
    have hr : r.bold = st2.2.2.2 := by
      cases hok
      rfl
    rw [hr, hchar]
    cases lastSemiboldWeight (facesOf env family) with
    | some w => rfl
    | none => simp

/-- Witness for C1: on the family of env1 (a semibold face of weight 0.3
followed by a bold face of weight 0.4) the bold field is the semibold weight. -/
theorem c1_amended_bold_field_witness :
    wr1.bold =
      match lastSemiboldWeight (facesOf env1 "Fam") with
      | some w => w
      | none => (firstBoldWeight (facesOf env1 "Fam")).getD wr.bold :=
  c1_amended_bold_field env1 "Fam" wr1 (by decide) (by decide)

/-- Counterexample for C1: with a semibold face of weight 0.3 listed before a
bold face of weight 0.4, the claim demands the bold field 0.4 (the bold label
said to win unconditionally), but the code computes 0.3. -/
theorem c1_counterexample :
    weightRangeForFamily env1 "Fam" = Except.ok wr1
    ∧ wr1.bold = 3/10 ∧ c1bold.weight = 2/5 ∧ isBoldFace c1bold = true
    ∧ (3 : ℚ)/10 ≠ 2/5 := by
  refine ⟨by decide, by decide, by decide, by decide, by norm_num⟩

/-! Lemmas about the scorer. -/

theorem boldComponent_congr (cfg : ScorerCfg) (wrOpt : Option WeightRange)
    (a b : CTFont) (hw : a.weight = b.weight) :
    boldComponent cfg wrOpt a = boldComponent cfg wrOpt b := by
  unfold boldComponent
  rw [hw]

theorem italicComponent_congr (cfg : ScorerCfg) (a b : CTFont)
    (hs : a.slant = b.slant) : italicComponent cfg a = italicComponent cfg b := by
  unfold italicComponent
  rw [hs]

theorem italicComponent_of_not_italic (cfg : ScorerCfg) (c : CTFont)
    (h : cfg.italic = false) : italicComponent cfg c = c.slant := by
  simp [italicComponent, h]

/-- Claim C2 (corrected). When the request does not ask for italic, the italic
component of style_distance equals the raw slant of the candidate (not zero),
so two candidates differing only in slant receive equal scores exactly when
their slants are equal. -/
theorem c2_amended_italic_component (cfg : ScorerCfg) (wrOpt : Option WeightRange)
    (a b : CTFont) (hitalic : cfg.italic = false)
    (hw : a.weight = b.weight) (hv : a.variation.isSome = b.variation.isSome)
    (hm : a.monospace = b.monospace) (he : a.expanded = b.expanded)
    (hc : a.condensed = b.condensed) :
    (score cfg wrOpt a = score cfg wrOpt b ↔ a.slant = b.slant)
    ∧ (score cfg wrOpt a).style_score = boldComponent cfg wrOpt a + a.slant := by
  have hbc : boldComponent cfg wrOpt a = boldComponent cfg wrOpt b :=
    boldComponent_congr cfg wrOpt a b hw
  have hia : italicComponent cfg a = a.slant := italicComponent_of_not_italic cfg a hitalic
  have hib : italicComponent cfg b = b.slant := italicComponent_of_not_italic cfg b hitalic
  constructor
  · constructor
    · intro hsc
      have h2 : (score cfg wrOpt a).style_score = (score cfg wrOpt b).style_score := by
        rw [hsc]
      simp only [score] at h2
      rw [hbc, hia, hib] at h2
      exact add_left_cancel h2
    · intro hs
      unfold score
      rw [hv, hm, he, hc, hbc, hia, hs, ← hib]
  · simp only [score]
    rw [hia]

/-- Witness for C2: the amended statement at the two concrete candidates of
cfgPlain differing only in slant. -/
theorem c2_amended_italic_component_witness :
    (score cfgPlain none c2a = score cfgPlain none c2b ↔ c2a.slant = c2b.slant)
    ∧ (score cfgPlain none c2a).style_score = boldComponent cfgPlain none c2a + c2a.slant :=
  c2_amended_italic_component cfgPlain none c2a c2b rfl rfl rfl rfl rfl rfl

/-- Counterexample for C2: under a non-italic request, two candidates
differing only in slant (0 versus 0.5) receive different scores, refuting the
claim that the italic component is zero and such candidates score equally. -/
theorem c2_counterexample :
    score cfgPlain none c2a ≠ score cfgPlain none c2b
    ∧ cfgPlain.italic = false ∧ c2a.weight = c2b.weight
    ∧ c2a.variation = c2b.variation ∧ c2a.monospace = c2b.monospace
    ∧ c2a.expanded = c2b.expanded ∧ c2a.condensed = c2b.condensed
    ∧ c2a.slant ≠ c2b.slant := by
  decide

/-! Total-preorder facts about the score order, and sortedness of pySort. -/

theorem scoreLe_total (a b : Score) : Score.le a b ∨ Score.le b a :=
  le_total (Score.key a) (Score.key b)

theorem scoreLe_trans {a b c : Score} (h1 : Score.le a b) (h2 : Score.le b c) :
    Score.le a c := le_trans h1 h2

theorem candLe_total (cfg : ScorerCfg) (wrOpt : Option WeightRange) (a b : CTFont) :
    candLe cfg wrOpt a b ∨ candLe cfg wrOpt b a :=
  scoreLe_total _ _

theorem candLe_trans (cfg : ScorerCfg) (wrOpt : Option WeightRange) {a b c : CTFont}
    (h1 : candLe cfg wrOpt a b) (h2 : candLe cfg wrOpt b c) : candLe cfg wrOpt a c :=
  scoreLe_trans h1 h2

theorem insertSorted_mem {α : Type} (r : α → α → Prop) [DecidableRel r]
    (x y : α) (l : List α) : y ∈ insertSorted r x l ↔ y = x ∨ y ∈ l := by
  induction l with
  | nil => simp [insertSorted]
  | cons b m ih =>
    by_cases h : r x b
    · simp [insertSorted, h]
    · simp only [insertSorted, if_neg h, List.mem_cons, ih]
      tauto

theorem insertSorted_pairwise {α : Type} (r : α → α → Prop) [DecidableRel r]
    (htot : ∀ a b, r a b ∨ r b a) (htr : ∀ a b c, r a b → r b c → r a c)
    (x : α) (l : List α) (hl : l.Pairwise r) : (insertSorted r x l).Pairwise r := by
  induction l with
  | nil => simp [insertSorted]
  | cons b m ih =>
    rw [List.pairwise_cons] at hl
    by_cases h : r x b
    · rw [insertSorted, if_pos h, List.pairwise_cons]
      refine ⟨?_, List.Pairwise.cons hl.1 hl.2⟩
      intro y hy
      rcases List.mem_cons.mp hy with hyb | hym
      · rw [hyb]; exact h
      · exact htr x b y h (hl.1 y hym)
    · rw [insertSorted, if_neg h, List.pairwise_cons]
      refine ⟨?_, ih hl.2⟩
      intro y hy
      rcases (insertSorted_mem r x y m).mp hy with hyx | hym
      · rw [hyx]
        rcases htot x b with hxb | hbx
        · exact absurd hxb h
        · exact hbx
      · exact hl.1 y hym

theorem pySort_cons {α : Type} (r : α → α → Prop) [DecidableRel r] (x : α) (l : List α) :
    pySort r (x :: l) = insertSorted r x (pySort r l) := rfl

theorem pySort_pairwise {α : Type} (r : α → α → Prop) [DecidableRel r]
    (htot : ∀ a b, r a b ∨ r b a) (htr : ∀ a b c, r a b → r b c → r a c)
    (l : List α) : (pySort r l).Pairwise r := by
  induction l with
  | nil => simp [pySort]
  | cons x l ih =>
    rw [pySort_cons]
    exact insertSorted_pairwise r htot htr x _ ih

theorem pySort_mem {α : Type} (r : α → α → Prop) [DecidableRel r] (y : α) (l : List α) :
    y ∈ pySort r l ↔ y ∈ l := by
  induction l with
  | nil => simp [pySort]
  | cons x l ih =>
    rw [pySort_cons, insertSorted_mem, ih, List.mem_cons]

/-- Claim C3 (corrected). In a batch scored without an established WeightRange,
a candidate of negative weight is ranked below every candidate of weight
between 0 and 1 that agrees with it on the other scored attributes (slant,
variation presence, monospace and width flags); with differing attributes the
claimed ranking can fail, so those side conditions are required. Positively:
anything at or after a negative-weight candidate that matches it on those
attributes cannot have weight in [0, 1]. -/
theorem c3_amended_thin_ranked_below (env : Bool → List CTFont) (cfg : ScorerCfg)
    (cands out : List CTFont) (i j : ℕ)
    (hwr : batchWeightRange env cands = Except.ok none)
    (hout : sortedCandidates env cfg cands = Except.ok out)
    (hi : i < out.length) (hj : j < out.length) (hij : i ≤ j)
    (hneg : (out.get ⟨i, hi⟩).weight < 0)
    (hs : (out.get ⟨i, hi⟩).slant = (out.get ⟨j, hj⟩).slant)
    (hv : (out.get ⟨i, hi⟩).variation.isSome = (out.get ⟨j, hj⟩).variation.isSome)
    (hm : (out.get ⟨i, hi⟩).monospace = (out.get ⟨j, hj⟩).monospace)
    (he : (out.get ⟨i, hi⟩).expanded = (out.get ⟨j, hj⟩).expanded)
    (hc : (out.get ⟨i, hi⟩).condensed = (out.get ⟨j, hj⟩).condensed) :
    (out.get ⟨j, hj⟩).weight < 0 ∨ 1 < (out.get ⟨j, hj⟩).weight := by
  rw [sortedCandidates, hwr] at hout
  simp only [bind, Except.bind, pure, Except.pure] at hout
  injection hout with hout2
  rcases eq_or_lt_of_le hij with heq | hlt
  · subst heq
    exact Or.inl hneg
  · have hpw : out.Pairwise (candLe cfg none) := by
      rw [← hout2]
      exact pySort_pairwise _ (candLe_total cfg none) (fun a b c => candLe_trans cfg none) cands
    have hrel : candLe cfg none (out.get ⟨i, hi⟩) (out.get ⟨j, hj⟩) :=
      List.pairwise_iff_get.mp hpw ⟨i, hi⟩ ⟨j, hj⟩ hlt
    by_contra hcon
    push_neg at hcon
    obtain ⟨h0, h1⟩ := hcon
    set A := out.get ⟨i, hi⟩ with hA
    set B := out.get ⟨j, hj⟩ with hB
    have hbA : boldComponent cfg none A = 2 := by
      unfold boldComponent
      rw [if_pos hneg]
    have hbB : boldComponent cfg none B < 2 := by
      unfold boldComponent
      rw [if_neg (not_lt.mpr h0)]
      by_cases hb : cfg.bold
      · rw [if_pos hb]
        rw [abs_lt]
        constructor <;> linarith
      · rw [if_neg hb]
        linarith
    have hit : italicComponent cfg A = italicComponent cfg B :=
      italicComponent_congr cfg A B hs
    have hstyle : (score cfg none B).style_score < (score cfg none A).style_score := by
      simp only [score]
      rw [hbA, hit]
      linarith
    have hvar : (score cfg none A).variable_score = (score cfg none B).variable_score := by
      simp only [score]
      rw [hv]
    have hklt : Score.key (score cfg none B) < Score.key (score cfg none A) := by
      unfold Score.key
      rw [Prod.Lex.lt_iff]
      right
      refine ⟨hvar.symm, ?_⟩
      rw [Prod.Lex.lt_iff]
      left
      exact hstyle
    exact absurd hrel (not_le.mpr hklt)

/-- Witness for C3: in the sorted two-family batch of cfgPlain, the candidate
at position 1 matches itself on the side attributes and has negative weight. -/
theorem c3_amended_thin_ranked_below_witness :
    c3d.weight < 0 ∨ 1 < c3d.weight :=
  c3_amended_thin_ranked_below envEmpty cfgPlain [c3c, c3d] [c3c, c3d] 1 1
    (by decide) (by decide) (by decide) (by decide) (le_refl 1)
    (by decide) rfl rfl rfl rfl rfl

/-- Counterexample for C3: with variable fonts preferred, a thin variable
candidate is ranked above a normal-weight non-variable candidate although the
batch has no established WeightRange, refuting the unconditional claim. -/
theorem c3_counterexample :
    batchWeightRange envEmpty [c3a, c3b] = Except.ok none
    ∧ sortedCandidates envEmpty cfgVar [c3a, c3b] = Except.ok [c3a, c3b]
    ∧ c3a.weight < 0 ∧ 0 ≤ c3b.weight := by
  refine ⟨by decide, by decide, by decide, by decide⟩

/-! Lemmas about the resolution pipeline. -/

theorem tryExactOne_none (env : Bool → List CTFont) (cfg : ScorerCfg)
    (m : List (String × List CTFont)) (q : String) (ig : Option CTFont)
    (h : mmGet m q = none) : tryExactOne env cfg m q ig = Except.ok none := by
  unfold tryExactOne
  rw [h]

/-- Claim C4 (corrected). Each styled role passes the resolved medium font as
the excluded face, and the exact-match (postscript or full-name) lookup can
then never return the medium face; but the family-level fallback ignores the
exclusion, so a role may still receive the exact same face as medium. -/
theorem c4_amended_exact_path_excludes_medium (env : Bool → List CTFont)
    (cfg : ScorerCfg) (m : List (String × List CTFont)) (q : String)
    (mface r : CTFont)
    (h : tryExactOne env cfg m q (some mface) = Except.ok (some r)) : r ≠ mface := by
  unfold tryExactOne at h
  cases hget : mmGet m q with
  | none =>
    rw [hget] at h
    injection h with h2
    exact Option.noConfusion h2
  | some cands =>
    rw [hget] at h
    simp only [] at h
    by_cases hemp : cands.isEmpty
    · rw [if_pos hemp] at h
      injection h with h2
      exact Option.noConfusion h2
    · rw [if_neg hemp] at h
      cases hsc : sortedCandidates env cfg cands with
      | error e =>
        rw [hsc] at h
        simp only [bind, Except.bind] at h
        exact Except.noConfusion h
      | ok sc =>
        rw [hsc] at h
        simp only [bind, Except.bind] at h
        cases sc with
        | nil => exact Except.noConfusion h
        | cons possible tail =>
          injection h with h2
          by_cases hne : some possible ≠ some mface
          · rw [if_pos hne] at h2
            injection h2 with h3
            intro hcon
            exact hne (by rw [h3, hcon])
          · rw [if_neg hne] at h2
            exact Option.noConfusion h2

/-- Witness for C4: with two faces sharing one postscript key and the worse
one excluded, the exact-match path returns the other face, which differs
from the excluded one. -/
theorem c4_amended_exact_path_excludes_medium_witness : c4b ≠ c4a :=
  c4_amended_exact_path_excludes_medium envShared cfgPlain
    (allFontsMap envShared true).ps_map "shared" c4a c4b (by decide)

/-- Counterexample for C4: with a single installed face, get_font_files
resolves the bold role through the family fallback to the exact same face
already chosen as medium, refuting the claim that this never happens. -/
theorem c4_counterexample :
    getFontFiles envMenlo opts4 = Except.ok ffRes ∧ ffRes.bold = ffRes.medium := by
  refine ⟨by decide, rfl⟩

/-- Claim C7 (corrected). For a family key absent from all three lookup maps,
provided the catalog holds the last-resort family menlo and scoring its
candidates succeeds, find_best_match does not raise: it logs the fallback
warning and returns the top-scored menlo candidate. As stated the claim fails:
a key absent from the family map may still hit the postscript or full-name
index (returning without warning from another family), and a catalog without
menlo raises a key error. -/
theorem c7_amended_fallback_to_menlo (env : Bool → List CTFont) (family : String)
    (bold italic mono pv : Bool) (ig : Option CTFont) (mcands : List CTFont)
    (c : CTFont) (rest : List CTFont)
    (h1 : mmGet (allFontsMap env mono).ps_map (familyNameToKey family) = none)
    (h2 : mmGet (allFontsMap env mono).full_map (familyNameToKey family) = none)
    (h3 : mmGet (allFontsMap env mono).family_map (familyNameToKey family) = none)
    (h4 : mmGet (allFontsMap env mono).family_map "menlo" = some mcands)
    (h5 : sortedCandidates env ⟨bold, italic, mono, pv⟩ mcands = Except.ok (c :: rest)) :
    findBestMatch env family bold italic mono ig pv = Except.ok (c, true) := by
  have e1 : tryExactOne env ⟨bold, italic, mono, pv⟩ (allFontsMap env mono).ps_map
      (familyNameToKey family) ig = Except.ok none := tryExactOne_none _ _ _ _ _ h1
  have e2 : tryExactOne env ⟨bold, italic, mono, pv⟩ (allFontsMap env mono).full_map
      (familyNameToKey family) ig = Except.ok none := tryExactOne_none _ _ _ _ _ h2
  simp only [findBestMatch]
  rw [e1]
  simp only [bind, Except.bind]
  rw [e2]
  simp only [bind, Except.bind]
  rw [h3]
  simp only [Option.isNone_none, if_true]
  rw [h4]
  simp only []
  rw [h5]
  simp only [bind, Except.bind]
  rfl

/-- Witness for C7: the unknown family NoSuchFontXYZ falls back to the menlo
candidate list with the warning logged. -/
theorem c7_amended_fallback_to_menlo_witness :
    findBestMatch envMenlo "NoSuchFontXYZ" false false true none false
      = Except.ok (menloFace, true) :=
  c7_amended_fallback_to_menlo envMenlo "NoSuchFontXYZ" false false true false none
    [menloFace] menloFace [] (by decide) (by decide) (by decide) (by decide) (by decide)

/-- Counterexample for C7: the key bar is absent from the family map, yet
find_best_match returns the Foo face through the postscript index with no
warning and without consulting any menlo fallback, refuting the claim as
stated. -/
theorem c7_counterexample :
    mmGet (allFontsMap envFoo true).family_map (familyNameToKey "Bar") = none
    ∧ findBestMatch envFoo "Bar" false false true none false = Except.ok (fooFace, false) := by
  refine ⟨by decide, by decide⟩

/-! Order facts about the path comparison and generic facts about pySort
needed for the variable-font deduplication. -/

theorem charsBle_refl (l : List Char) : charsBle l l = true := by
  induction l with
  | nil => rfl
  | cons a as ih =>
    rw [charsBle, if_neg (lt_irrefl a), if_neg (lt_irrefl a)]
    exact ih

theorem charsBle_total (a b : List Char) : charsBle a b = true ∨ charsBle b a = true := by
  induction a generalizing b with
  | nil => left; rfl
  | cons x xs ih =>
    cases b with
    | nil => right; rfl
    | cons y ys =>
      rcases lt_trichotomy x y with hlt | heq | hgt
      · left
        rw [charsBle, if_pos hlt]
      · subst heq
        rw [charsBle, if_neg (lt_irrefl x), if_neg (lt_irrefl x),
          charsBle, if_neg (lt_irrefl x), if_neg (lt_irrefl x)]
        exact ih ys
      · right
        rw [charsBle, if_pos hgt]

theorem charsBle_trans (a b c : List Char) (h1 : charsBle a b = true)
    (h2 : charsBle b c = true) : charsBle a c = true := by
  induction a generalizing b c with
  | nil => rfl
  | cons x xs ih =>
    cases b with
    | nil => exact absurd h1 (by rw [charsBle]; simp)
    | cons y ys =>
      cases c with
      | nil => exact absurd h2 (by rw [charsBle]; simp)
      | cons z zs =>
        rw [charsBle] at h1 h2 ⊢
        by_cases hxy : x < y
        · rw [if_pos hxy] at h1
          by_cases hyz : y < z
          · rw [if_pos (lt_trans hxy hyz)]
          · rw [if_neg hyz] at h2
            by_cases hzy : z < y
            · rw [if_pos hzy] at h2
              exact absurd h2 (by simp)
            · have hyzeq : y = z := le_antisymm (not_lt.mp hzy) (not_lt.mp hyz)
              rw [if_pos (hyzeq ▸ hxy)]
        · rw [if_neg hxy] at h1
          by_cases hyx : y < x
          · rw [if_pos hyx] at h1
            exact absurd h1 (by simp)
          · have hxyeq : x = y := le_antisymm (not_lt.mp hyx) (not_lt.mp hxy)
            subst hxyeq
            rw [if_neg (lt_irrefl x)] at h1
            by_cases hyz : x < z
            · rw [if_pos hyz]
            · rw [if_neg hyz] at h2 ⊢
              by_cases hzy : z < x
              · rw [if_pos hzy] at h2
                exact absurd h2 (by simp)
              · rw [if_neg hzy] at h2 ⊢
                exact ih ys zs h1 h2

theorem charsBle_antisymm (a b : List Char) (h1 : charsBle a b = true)
    (h2 : charsBle b a = true) : a = b := by
  induction a generalizing b with
  | nil =>
    cases b with
    | nil => rfl
    | cons y ys => exact absurd h2 (by rw [charsBle]; simp)
  | cons x xs ih =>
    cases b with
    | nil => exact absurd h1 (by rw [charsBle]; simp)
    | cons y ys =>
      rw [charsBle] at h1 h2
      by_cases hxy : x < y
      · rw [if_neg (lt_asymm hxy), if_pos hxy] at h2
        exact absurd h2 (by simp)
      · rw [if_neg hxy] at h1
        by_cases hyx : y < x
        · rw [if_pos hyx] at h1
          exact absurd h1 (by simp)
        · have hxyeq : x = y := le_antisymm (not_lt.mp hyx) (not_lt.mp hxy)
          subst hxyeq
          rw [if_neg (lt_irrefl x)] at h1 h2
          rw [if_neg (lt_irrefl x)] at h2
          rw [ih ys h1 h2]

theorem pathLe_total (a b : CTFont) : pathLe a b ∨ pathLe b a :=
  charsBle_total a.path.data b.path.data

theorem pathLe_trans {a b c : CTFont} (h1 : pathLe a b) (h2 : pathLe b c) : pathLe a c :=
  charsBle_trans _ _ _ h1 h2

theorem pathLe_key (a b c : CTFont) (h1 : pathLe a b) (h2 : pathLe b c)
    (h3 : c.path = a.path) : b.path = a.path := by
  have h2b : charsBle b.path.data a.path.data = true := by
    unfold pathLe at h2
    rw [h3] at h2
    exact h2
  exact congrArg String.mk (charsBle_antisymm _ _ h2b h1)

theorem sizeLe_total (a b : CTFont) : sizeLe a b ∨ sizeLe b a := Nat.le_total _ _

theorem sizeLe_trans {a b c : CTFont} (h1 : sizeLe a b) (h2 : sizeLe b c) : sizeLe a c :=
  Nat.le_trans h1 h2

theorem insertSorted_ne_nil {α : Type} (r : α → α → Prop) [DecidableRel r]
    (x : α) (l : List α) : insertSorted r x l ≠ [] := by
  cases l with
  | nil => simp [insertSorted]
  | cons b m =>
    rw [insertSorted]
    by_cases h : r x b <;> simp [h]

theorem insertSorted_filter_class {α : Type} (r : α → α → Prop) [DecidableRel r]
    (cls : α → Bool) (hcls : ∀ a b, cls a = true → cls b = true → r a b) :
    ∀ (m : List α) (x : α),
      (insertSorted r x m).filter cls = if cls x then x :: m.filter cls else m.filter cls := by
  intro m
  induction m with
  | nil =>
    intro x
    rw [insertSorted]
    cases hx : cls x <;> simp [List.filter, hx]
  | cons b m ih =>
    intro x
    rw [insertSorted]
    by_cases hr : r x b
    · rw [if_pos hr]
      cases hx : cls x <;> simp [List.filter_cons, hx]
    · rw [if_neg hr]
      rw [List.filter_cons, List.filter_cons, ih x]
      cases hx : cls x with
      | true =>
        have hb : cls b = false := by
          cases hcb : cls b with
          | true => exact absurd (hcls x b hx hcb) hr
          | false => rfl
        simp [hx, hb]
      | false => cases hcb : cls b <;> simp [hx, hcb]

theorem pySort_filter_class {α : Type} (r : α → α → Prop) [DecidableRel r]
    (cls : α → Bool) (hcls : ∀ a b, cls a = true → cls b = true → r a b)
    (l : List α) : (pySort r l).filter cls = l.filter cls := by
  induction l with
  | nil => rfl
  | cons x l ih =>
    rw [pySort_cons, insertSorted_filter_class r cls hcls _ x, ih, List.filter_cons]

theorem find?_strengthen {α : Type} (p q : α → Bool) (l : List α) (x : α)
    (h : l.find? p = some x) (himp : ∀ a, q a = true → p a = true)
    (hx : q x = true) : l.find? q = some x := by
  induction l with
  | nil => simp at h
  | cons a rest ih =>
    cases hpa : p a with
    | true =>
      rw [List.find?_cons_of_pos _ hpa] at h
      injection h with h2
      subst h2
      rw [List.find?_cons_of_pos _ hx]
    | false =>
      rw [List.find?_cons_of_neg _ (by simp [hpa])] at h
      have hqa : q a = false := by
        cases hq : q a with
        | true => rw [himp a hq] at hpa; exact absurd hpa (by simp)
        | false => rfl
      rw [List.find?_cons_of_neg _ (by simp [hqa])]
      exact ih h

theorem find?_filter {α : Type} (q p : α → Bool) (l : List α) :
    (l.filter q).find? p = l.find? (fun a => q a && p a) := by
  induction l with
  | nil => rfl
  | cons a rest ih =>
    rw [List.filter_cons]
    cases hq : q a with
    | true =>
      simp only [if_true]
      cases hp : p a with
      | true =>
        rw [List.find?_cons_of_pos _ hp, List.find?_cons_of_pos _ (by simp [hq, hp])]
      | false =>
        rw [List.find?_cons_of_neg _ (by simp [hp]),
          List.find?_cons_of_neg _ (by simp [hq, hp]), ih]
    | false =>
      simp only [Bool.false_eq_true, if_false]
      rw [List.find?_cons_of_neg _ (by simp [hq]), ih]

theorem all_filter {α : Type} (q p : α → Bool) (l : List α) :
    (l.filter q).all p = l.all (fun a => !q a || p a) := by
  induction l with
  | nil => rfl
  | cons a rest ih =>
    rw [List.filter_cons]
    cases hq : q a with
    | true => simp only [if_true, List.all_cons, ih, hq, Bool.not_true, Bool.false_or]
    | false =>
      simp only [Bool.false_eq_true, if_false, List.all_cons, ih, hq, Bool.not_false,
        Bool.true_or, Bool.true_and]

theorem pySort_head {α : Type} (r : α → α → Prop) [DecidableRel r]
    (htot : ∀ a b, r a b ∨ r b a) (htr : ∀ a b c, r a b → r b c → r a c) :
    ∀ l : List α, (pySort r l).head? = l.find? (fun a => l.all (fun b => decide (r a b))) := by
  intro l
  induction l with
  | nil => rfl
  | cons x l ih =>
    have hrefl : ∀ a : α, r a a := fun a => (htot a a).elim id id
    rw [pySort_cons]
    cases hps : pySort r l with
    | nil =>
      have hl : l = [] := by
        cases l with
        | nil => rfl
        | cons y ys => exact absurd hps (by rw [pySort_cons]; exact insertSorted_ne_nil r y _)
      subst hl
      rw [insertSorted]
      rw [List.find?_cons_of_pos _ (by simp [hrefl x])]
      rfl
    | cons h m =>
      rw [hps] at ih
      have hfind : l.find? (fun a => l.all (fun b => decide (r a b))) = some h := ih.symm
      have hmem : h ∈ l := List.mem_of_find?_eq_some hfind
      have hall := List.find?_some hfind
      have hallp : ∀ b ∈ l, r h b := by
        intro b hb
        have := List.all_eq_true.mp hall b hb
        exact of_decide_eq_true this
      rw [insertSorted]
      by_cases hr : r x h
      · rw [if_pos hr]
        have hx : ((x :: l).all (fun b => decide (r x b))) = true := by
          rw [List.all_cons, Bool.and_eq_true]
          constructor
          · exact decide_eq_true (hrefl x)
          · rw [List.all_eq_true]
            intro b hb
            exact decide_eq_true (htr x h b hr (hallp b hb))
        rw [List.head?_cons, List.find?_cons]
        simp only [hx, if_true]
      · rw [if_neg hr]
        have hx : ((x :: l).all (fun b => decide (r x b))) = false := by
          rw [List.all_cons]
          have h2 : l.all (fun b => decide (r x b)) = false := by
            cases hc : l.all (fun b => decide (r x b)) with
            | true =>
              have h3 := List.all_eq_true.mp hc h hmem
              exact absurd (of_decide_eq_true h3) hr
            | false => rfl
          rw [h2]
          simp
        have hrx : r h x := (htot x h).elim (fun hc => absurd hc hr) id
        rw [List.head?_cons, List.find?_cons]
        simp only [hx, Bool.false_eq_true, if_false]
        refine (find?_strengthen _ _ l h hfind ?_ ?_).symm
        · intro a ha
          rw [List.all_cons, Bool.and_eq_true] at ha
          rw [List.all_eq_true]
          intro b hb
          exact (List.all_eq_true.mp ha.2) b hb
        · rw [List.all_cons, Bool.and_eq_true]
          exact ⟨decide_eq_true hrx, hall⟩

/-! Lemmas about pyGroupBy on a sorted list. -/

theorem pyGroupBy_first {α β : Type} [DecidableEq β] (key : α → β) (x : α) (xs : List α) :
    ∃ t rest, pyGroupBy key (x :: xs) = (x, t) :: rest := by
  cases hg : pyGroupBy key xs with
  | nil => exact ⟨[], [], by simp only [pyGroupBy, hg]⟩
  | cons g0 rest =>
    obtain ⟨h, t⟩ := g0
    by_cases hk : key x = key h
    · exact ⟨h :: t, rest, by simp only [pyGroupBy, hg, if_pos hk]⟩
    · exact ⟨[], (h, t) :: rest, by simp only [pyGroupBy, hg, if_neg hk]⟩

theorem pyGroupBy_nil {α β : Type} [DecidableEq β] (key : α → β) (l : List α)
    (h : pyGroupBy key l = []) : l = [] := by
  cases l with
  | nil => rfl
  | cons x xs =>
    obtain ⟨t, rest, he⟩ := pyGroupBy_first key x xs
    rw [he] at h
    exact List.noConfusion h

theorem pyGroupBy_sound {α β : Type} [DecidableEq β] (key : α → β) (R : α → α → Prop)
    (hkey : ∀ a b c, R a b → R b c → key c = key a → key b = key a) :
    ∀ l : List α, l.Pairwise R →
      (∀ g ∈ pyGroupBy key l,
        (g.1 :: g.2 = l.filter (fun z => key z == key g.1)) ∧ g.1 ∈ l)
      ∧ ((pyGroupBy key l).map (fun g => key g.1)).Nodup
      ∧ (∀ x ∈ l, ∃ g ∈ pyGroupBy key l, x ∈ g.1 :: g.2) := by
  intro l
  induction l with
  | nil =>
    intro _
    refine ⟨?_, ?_, ?_⟩ <;> simp [pyGroupBy]
  | cons x xs ih =>
    intro hpw
    rw [List.pairwise_cons] at hpw
    obtain ⟨hx, hxs⟩ := hpw
    obtain ⟨IH1, IH2, IH3⟩ := ih hxs
    cases hg : pyGroupBy key xs with
    | nil =>
      have hxsnil : xs = [] := pyGroupBy_nil key xs hg
      subst hxsnil
      have hres : pyGroupBy key [x] = [(x, [])] := by simp only [pyGroupBy]
      refine ⟨?_, ?_, ?_⟩
      · intro g hgmem
        rw [hres] at hgmem
        rcases List.mem_cons.mp hgmem with hgx | hgn
        · subst hgx
          refine ⟨?_, List.mem_cons_self _ _⟩
          simp [List.filter_cons]
        · exact absurd hgn (List.not_mem_nil g)
      · rw [hres]
        simp
      · intro z hz
        rcases List.mem_cons.mp hz with hzx | hzn
        · subst hzx
          exact ⟨(z, []), by rw [hres]; exact List.mem_cons_self _ _, List.mem_cons_self _ _⟩
        · exact absurd hzn (List.not_mem_nil z)
    | cons g0 rest =>
      obtain ⟨h0, t0⟩ := g0
      have hres : pyGroupBy key (x :: xs) =
          if key x = key h0 then (x, h0 :: t0) :: rest
          else (x, []) :: (h0, t0) :: rest := by
        simp only [pyGroupBy, hg]
      cases xs with
      | nil =>
        rw [show pyGroupBy key ([] : List α) = [] from rfl] at hg
        exact List.noConfusion hg
      | cons y ys =>
        obtain ⟨t', rest', hfirst⟩ := pyGroupBy_first key y ys
        have heq := hfirst.symm.trans hg
        injection heq with heq1 heq2
        injection heq1 with hy1 hy2
        have hh0 : h0 = y := hy1.symm
        have hmemfacts : ((h0, t0).1 :: (h0, t0).2 =
              (y :: ys).filter (fun z => key z == key (h0, t0).1)) ∧ (h0, t0).1 ∈ y :: ys :=
          IH1 (h0, t0) (by rw [hg]; exact List.mem_cons_self _ _)
        have hfil0 : h0 :: t0 = (y :: ys).filter (fun z => key z == key h0) := hmemfacts.1
        have hmem0 : h0 ∈ y :: ys := hmemfacts.2
        have hrest1 : ∀ g ∈ rest,
            (g.1 :: g.2 = (y :: ys).filter (fun z => key z == key g.1)) ∧ g.1 ∈ y :: ys :=
          fun g hgm => IH1 g (by rw [hg]; exact List.mem_cons_of_mem _ hgm)
        have IH2b : ((key h0) :: rest.map (fun g => key g.1)).Nodup := by
          have h2 := IH2
          rw [hg, List.map_cons] at h2
          exact h2
        rw [List.nodup_cons] at IH2b
        obtain ⟨hnotin, hnodup⟩ := IH2b
        by_cases hxk : key x = key h0
        · refine ⟨?_, ?_, ?_⟩
          · intro g hgmem
            rw [hres, if_pos hxk] at hgmem
            rcases List.mem_cons.mp hgmem with hgfirst | hgrest
            · subst hgfirst
              refine ⟨?_, List.mem_cons_self _ _⟩
              rw [List.filter_cons, if_pos (by simp)]
              have hpredeq : (fun z => key z == key x) = (fun z => key z == key h0) := by
                funext z
                rw [hxk]
              rw [hpredeq, ← hfil0]
            · obtain ⟨hfilg, hmemg⟩ := hrest1 g hgrest
              have hne : key x ≠ key g.1 := by
                intro hcon
                apply hnotin
                rw [← hxk, hcon]
                exact List.mem_map_of_mem _ hgrest
              refine ⟨?_, List.mem_cons_of_mem _ hmemg⟩
              rw [List.filter_cons, if_neg (by simp [hne])]
              exact hfilg
          · rw [hres, if_pos hxk, List.map_cons]
            rw [List.nodup_cons]
            constructor
            · rw [hxk]
              exact hnotin
            · exact hnodup
          · intro z hz
            rw [hres, if_pos hxk]
            rcases List.mem_cons.mp hz with hzx | hzxs
            · subst hzx
              exact ⟨(z, h0 :: t0), List.mem_cons_self _ _, List.mem_cons_self _ _⟩
            · obtain ⟨g, hgmem, hzin⟩ := IH3 z hzxs
              rw [hg] at hgmem
              rcases List.mem_cons.mp hgmem with hgfirst | hgrest
              · refine ⟨(x, h0 :: t0), List.mem_cons_self _ _, ?_⟩
                rw [hgfirst] at hzin
                exact List.mem_cons_of_mem _ hzin
              · exact ⟨g, List.mem_cons_of_mem _ hgrest, hzin⟩
        · have hy : ∀ w ∈ ys, R y w := (List.pairwise_cons.mp hxs).1
          have hkx : ∀ z ∈ y :: ys, key z ≠ key x := by
            intro z hz hconz
            rcases List.mem_cons.mp hz with hzy | hzys
            · apply hxk
              rw [← hh0] at hzy
              rw [← hzy, hconz]
            · have hR1 : R x y := hx y (List.mem_cons_self _ _)
              have hR2 : R y z := hy z hzys
              have := hkey x y z hR1 hR2 hconz
              apply hxk
              rw [hh0, this]
          refine ⟨?_, ?_, ?_⟩
          · intro g hgmem
            rw [hres, if_neg hxk] at hgmem
            rcases List.mem_cons.mp hgmem with hgfirst | hgtail
            · subst hgfirst
              refine ⟨?_, List.mem_cons_self _ _⟩
              rw [List.filter_cons, if_pos (by simp)]
              have hnilf : (y :: ys).filter (fun z => key z == key x) = [] := by
                rw [List.filter_eq_nil_iff]
                intro z hz
                simp [hkx z hz]
              rw [hnilf]
            · have hgmem2 : g ∈ pyGroupBy key (y :: ys) := by
                rw [hg]
                exact hgtail
              obtain ⟨hfilg, hmemg⟩ := IH1 g hgmem2
              have hne : key x ≠ key g.1 := fun he => hkx g.1 hmemg he.symm
              refine ⟨?_, List.mem_cons_of_mem _ hmemg⟩
              rw [List.filter_cons, if_neg (by simp [hne])]
              exact hfilg
          · rw [hres, if_neg hxk, List.map_cons, List.nodup_cons]
            constructor
            · intro hcon
              obtain ⟨g, hgm, hkeq⟩ := List.mem_map.mp hcon
              have hgmem2 : g ∈ pyGroupBy key (y :: ys) := by
                rw [hg]
                exact hgm
              exact hkx g.1 (IH1 g hgmem2).2 hkeq
            · have h2 := IH2
              rw [hg] at h2
              exact h2
          · intro z hz
            rw [hres, if_neg hxk]
            rcases List.mem_cons.mp hz with hzx | hzxs
            · subst hzx
              exact ⟨(z, []), List.mem_cons_self _ _, List.mem_cons_self _ _⟩
            · obtain ⟨g, hgmem, hzin⟩ := IH3 z hzxs
              rw [hg] at hgmem
              exact ⟨g, List.mem_cons_of_mem _ hgmem, hzin⟩

/-! Lemmas about the catalog builder and the variable index. -/

theorem mmGet_mmAdd (m : List (String × List CTFont)) (k k2 : String) (x : CTFont) :
    mmGet (mmAdd m k x) k2 =
      if k = k2 then some ((mmGet m k).getD [] ++ [x]) else mmGet m k2 := by
  induction m with
  | nil => by_cases h2 : k = k2 <;> simp [mmAdd, mmGet, h2]
  | cons kv rest ih =>
    by_cases h : kv.1 = k
    · by_cases h2 : k = k2
      · simp [mmAdd, mmGet, h, h2]
      · have h3 : kv.1 ≠ k2 := by rw [h]; exact h2
        simp [mmAdd, mmGet, h, h2, h3]
    · by_cases h2 : kv.1 = k2
      · have h3 : k ≠ k2 := fun he => h (by rw [he, h2])
        have h4 : k2 ≠ k := fun he => h3 he.symm
        simp [mmAdd, mmGet, h, h2, h3, h4]
      · simp [mmAdd, mmGet, h, h2, ih]

theorem foldl_fmStep_vmap (l : List CTFont) :
    ∀ st : FMBuild,
      (List.foldl fmStep st l).vmap =
        List.foldl
          (fun m x => if x.variation.isSome then mmAdd m (familyNameToKey x.family) x else m)
          st.vmap l := by
  induction l with
  | nil => intro st; rfl
  | cons x rest ih =>
    intro st
    rw [List.foldl_cons, List.foldl_cons, ih]
    rfl

theorem vfold_mmGet (k : String) (l : List CTFont) :
    ∀ m : List (String × List CTFont),
      mmGet (List.foldl
          (fun m x => if x.variation.isSome then mmAdd m (familyNameToKey x.family) x else m)
          m l) k =
        match mmGet m k with
        | some c => some (c ++ famVariable l k)
        | none => if famVariable l k = [] then none else some (famVariable l k) := by
  induction l with
  | nil =>
    intro m
    simp only [List.foldl_nil, famVariable, List.filter_nil, List.append_nil]
    cases mmGet m k <;> simp
  | cons x rest ih =>
    intro m
    rw [List.foldl_cons]
    by_cases hv : x.variation.isSome
    · by_cases hk : familyNameToKey x.family = k
      · have hfam2 : famVariable (x :: rest) k = x :: famVariable rest k := by
          simp [famVariable, List.filter_cons, hv, hk]
        rw [if_pos hv, ih, hk, mmGet_mmAdd, if_pos rfl, hfam2]
        cases hm : mmGet m k with
        | some c => simp [List.append_assoc]
        | none => simp
      · have hfam2 : famVariable (x :: rest) k = famVariable rest k := by
          simp [famVariable, List.filter_cons, hk]
        rw [if_pos hv, ih, mmGet_mmAdd, if_neg hk, hfam2]
    · have hfam2 : famVariable (x :: rest) k = famVariable rest k := by
        simp [famVariable, List.filter_cons, hv]
      rw [if_neg hv, ih, hfam2]

theorem mmGet_map (g : List CTFont → List CTFont) (m : List (String × List CTFont))
    (k : String) :
    mmGet (m.map (fun kv => (kv.1, g kv.2))) k = (mmGet m k).map g := by
  induction m with
  | nil => rfl
  | cons kv rest ih =>
    by_cases h : kv.1 = k <;> simp [mmGet, h, ih]

theorem createFontMap_variable_map (allFonts : List CTFont) (k : String) :
    mmGet (createFontMap allFonts).variable_map k =
      if famVariable allFonts k = [] then none
      else some (uniqPerPath (famVariable allFonts k)) := by
  have h1 : (createFontMap allFonts).variable_map =
      ((List.foldl fmStep ⟨[], [], [], []⟩ allFonts).vmap).map
        (fun kv => (kv.1, uniqPerPath kv.2)) := rfl
  rw [h1, mmGet_map, foldl_fmStep_vmap, vfold_mmGet]
  cases hf : famVariable allFonts k with
  | nil => simp [mmGet, hf]
  | cons a b => simp [mmGet, hf]

theorem pickDefault_spec (h : CTFont) (t : List CTFont) :
    (h :: t).find? (fun a => (h :: t).all (fun b => decide (sizeLe a b)))
      = some (pickDefault h t) := by
  have hhead := pySort_head sizeLe sizeLe_total (fun a b c => sizeLe_trans) (h :: t)
  cases hps : pySort sizeLe (h :: t) with
  | nil => exact absurd hps (by rw [pySort_cons]; exact insertSorted_ne_nil _ _ _)
  | cons m m' =>
    rw [hps, List.head?_cons] at hhead
    have hpd : pickDefault h t = m := by
      unfold pickDefault
      rw [hps]
      rfl
    rw [hpd]
    exact hhead.symm

theorem pathCls_le (p : String) (a b : CTFont) (ha : (a.path == p) = true)
    (hb : (b.path == p) = true) : pathLe a b := by
  have ha2 : a.path = p := by simpa using ha
  have hb2 : b.path = p := by simpa using hb
  unfold pathLe
  rw [ha2, hb2]
  exact charsBle_refl _

theorem uniqPerPath_spec (v : List CTFont) :
    ((uniqPerPath v).map (fun f => f.path)).Nodup
    ∧ (∀ f ∈ uniqPerPath v, firstMinForPath v f.path = some f)
    ∧ (∀ p : String, (∃ g ∈ v, g.path = p) ↔ ∃ f ∈ uniqPerPath v, f.path = p) := by
  have hsorted : (pySort pathLe v).Pairwise pathLe :=
    pySort_pairwise pathLe pathLe_total (fun a b c => pathLe_trans) v
  obtain ⟨G1, G2, G3⟩ :=
    pyGroupBy_sound (fun f => f.path) pathLe pathLe_key (pySort pathLe v) hsorted
  have hstab : ∀ p : String,
      (pySort pathLe v).filter (fun z => z.path == p) = v.filter (fun z => z.path == p) :=
    fun p => pySort_filter_class pathLe _ (fun a b ha hb => pathCls_le p a b ha hb) v
  have huniq : uniqPerPath v =
      (pyGroupBy (fun f => f.path) (pySort pathLe v)).map (fun g => pickDefault g.1 g.2) := rfl
  have hchain : ∀ g ∈ pyGroupBy (fun f => f.path) (pySort pathLe v),
      (pickDefault g.1 g.2).path = g.1.path
      ∧ firstMinForPath v g.1.path = some (pickDefault g.1 g.2)
      ∧ pickDefault g.1 g.2 ∈ v := by
    intro g hg
    have hgrp2 : g.1 :: g.2 = v.filter (fun z => z.path == g.1.path) := by
      have h0 : g.1 :: g.2 = (pySort pathLe v).filter (fun z => z.path == g.1.path) :=
        (G1 g hg).1
      rw [h0, hstab g.1.path]
    have hpick := pickDefault_spec g.1 g.2
    have hpmem : pickDefault g.1 g.2 ∈ g.1 :: g.2 := List.mem_of_find?_eq_some hpick
    rw [hgrp2] at hpick hpmem
    rw [find?_filter] at hpick
    simp only [all_filter] at hpick
    have hmin : firstMinForPath v g.1.path = some (pickDefault g.1 g.2) := hpick
    have hmem2 := List.mem_filter.mp hpmem
    have hpath : (pickDefault g.1 g.2).path = g.1.path := by
      have := hmem2.2
      simpa using this
    exact ⟨hpath, hmin, hmem2.1⟩
  refine ⟨?_, ?_, ?_⟩
  · rw [huniq, List.map_map]
    have hmc : ((pyGroupBy (fun f => f.path) (pySort pathLe v)).map
          ((fun f => f.path) ∘ (fun g => pickDefault g.1 g.2)))
        = (pyGroupBy (fun f => f.path) (pySort pathLe v)).map (fun g => g.1.path) := by
      apply List.map_congr_left
      intro g hg
      exact (hchain g hg).1
    rw [hmc]
    exact G2
  · intro f hf
    rw [huniq] at hf
    obtain ⟨g, hg, hfg⟩ := List.mem_map.mp hf
    obtain ⟨hpath, hmin, _⟩ := hchain g hg
    rw [← hfg, hpath]
    exact hmin
  · intro p
    constructor
    · rintro ⟨z, hzv, hzp⟩
      have hzv2 : z ∈ pySort pathLe v := (pySort_mem pathLe z v).mpr hzv
      obtain ⟨g, hg, hzin⟩ := G3 z hzv2
      have hgrp2 : g.1 :: g.2 = v.filter (fun w => w.path == g.1.path) := by
        have h0 : g.1 :: g.2 = (pySort pathLe v).filter (fun w => w.path == g.1.path) :=
          (G1 g hg).1
        rw [h0, hstab g.1.path]
      rw [hgrp2] at hzin
      have hzp2 : z.path = g.1.path := by
        have := (List.mem_filter.mp hzin).2
        simpa using this
      obtain ⟨hpath, _, _⟩ := hchain g hg
      refine ⟨pickDefault g.1 g.2, ?_, ?_⟩
      · rw [huniq]
        exact List.mem_map_of_mem _ hg
      · rw [hpath, ← hzp2, hzp]
    · rintro ⟨f, hf, hfp⟩
      rw [huniq] at hf
      obtain ⟨g, hg, hfg⟩ := List.mem_map.mp hf
      obtain ⟨_, _, hin⟩ := hchain g hg
      refine ⟨f, ?_, hfp⟩
      rw [← hfg]
      exact hin

/-- Claim C5 (confirmed). For every family key, the variable index of
create_font_map keeps exactly one descriptor per file path: its paths are
pairwise distinct, they cover exactly the paths occurring among the family's
variable descriptors, and each kept descriptor is the first descriptor (in
enumeration order) with its path whose variation dictionary is smallest among
the descriptors sharing that path; so ties resolve to the first-seen
descriptor, and among variation sizes 2, 0, 5 on one path the size-0
descriptor is kept. -/
theorem c5_variable_index_dedup (allFonts : List CTFont) (k : String)
    (lst : List CTFont)
    (h : mmGet (createFontMap allFonts).variable_map k = some lst) :
    ((lst.map (fun f => f.path)).Nodup)
    ∧ (∀ f ∈ lst, firstMinForPath (famVariable allFonts k) f.path = some f)
    ∧ (∀ p : String,
        (∃ g ∈ famVariable allFonts k, g.path = p) ↔ ∃ f ∈ lst, f.path = p) := by
  rw [createFontMap_variable_map] at h
  by_cases hf : famVariable allFonts k = []
  · rw [if_pos hf] at h
    exact Option.noConfusion h
  · rw [if_neg hf] at h
    injection h with h2
    subst h2
    exact uniqPerPath_spec (famVariable allFonts k)

/-- Witness for C5: among three descriptors of one file with variation sizes
2, 0 and 5, the variable index keeps exactly the size-0 descriptor, and it is
the first-seen minimal-variation descriptor for that path. -/
theorem c5_variable_index_dedup_witness :
    mmGet (createFontMap allFonts5).variable_map "vfam" = some [d0]
    ∧ firstMinForPath (famVariable allFonts5 "vfam") d0.path = some d0 :=
  ⟨by decide,
    (c5_variable_index_dedup allFonts5 "vfam" [d0] (by decide)).2.1 d0
      (List.mem_cons_self _ _)⟩

end KittyCore
